import Mathlib

/-!
# Verification of the xv6 COW physical page allocator (`kernel/kalloc.c`)

Shallow embedding of the allocator: the free list `kmem.freelist` becomes a
`List Nat` of page addresses (head = most recently pushed), the reference
count array `refcnt.count` becomes a function `Nat → Int` (C `int` may go
negative), and physical memory becomes a byte map `Nat → Nat`.  A `panic`
is modelled by returning `none`.  The constants `PGSIZE`, `PHYSTOP` and the
linker symbol `end` come from headers outside this file's source
(`riscv.h`, `memlayout.h`, `kernel.ld`), so `PHYSTOP` and `end` are
parameters of every operation and `PGROUNDUP` is modelled from the spec.
-/

namespace KAlloc

/-- Page size; the allocator "Allocates whole 4096-byte pages" (kalloc.c line 3). -/
def PGSIZE : Nat := 4096

/-- Modelled from the spec: `PGROUNDUP` is defined in `riscv.h`, which is not
part of this source tree; the spec says `seed` "rounds `rangeStart` up to the
next page boundary".  For natural numbers the standard macro
`((sz)+PGSIZE-1) & ~(PGSIZE-1)` equals this round-up to a multiple of `PGSIZE`. -/
def PGROUNDUP (a : Nat) : Nat := ((a + PGSIZE - 1) / PGSIZE) * PGSIZE

/-- State of the allocator subsystem:
`freelist` mirrors the chain rooted at `kmem.freelist` (the in-page `next`
pointers are additionally shadowed in `mem` by `kfree`'s push),
`count` is `refcnt.count` indexed by page number, and `mem` is the byte
content of physical memory. -/
structure KState where
  freelist : List Nat
  count : Nat → Int
  mem : Nat → Nat

/-- `memset(dst, v, n)`: fill `n` bytes starting at `dst` with byte `v`. -/
def memset (m : Nat → Nat) (dst v n : Nat) : Nat → Nat :=
  fun x => if dst ≤ x ∧ x < dst + n then v else m x

/-- Store a 64-bit little-endian value at address `a` (the pointer write
`r->next = kmem.freelist` into the first word of the freed page). -/
def store64 (m : Nat → Nat) (a v : Nat) : Nat → Nat :=
  fun x => if a ≤ x ∧ x < a + 8 then (v >>> (8 * (x - a))) % 256 else m x

/-- The numeric value of the `kmem.freelist` head pointer (`0` = null). -/
def headPtr (l : List Nat) : Nat := l.headD 0

/-- `getrefcnt(pa)`: `return refcnt.count[(uint64)pa / PGSIZE];` (lines 44-48).
Note: reads the table without acquiring `refcnt.lock`. -/
def getrefcnt (s : KState) (pa : Nat) : Int :=
  s.count (pa / PGSIZE)

/-- `increfcnt(pa)` (lines 51-60): panics unless `pa` is page-aligned and
below `PHYSTOP`; then increments the page's counter under `refcnt.lock`. -/
def increfcnt (PHYSTOP : Nat) (s : KState) (pa : Nat) : Option KState :=
  if pa % PGSIZE ≠ 0 ∨ pa ≥ PHYSTOP then
    none
  else
    some { s with count := Function.update s.count (pa / PGSIZE) (s.count (pa / PGSIZE) + 1) }

/-- `decrefcnt(pa)` (lines 63-73): panics unless `pa` is page-aligned and
below `PHYSTOP`; decrements the counter under `refcnt.lock` and returns the
new value. -/
def decrefcnt (PHYSTOP : Nat) (s : KState) (pa : Nat) : Option (Int × KState) :=
  if pa % PGSIZE ≠ 0 ∨ pa ≥ PHYSTOP then
    none
  else
    let c := s.count (pa / PGSIZE) - 1
    some (c, { s with count := Function.update s.count (pa / PGSIZE) c })

/-- The push at kalloc.c lines 103-107: `r = (struct run*)pa;`
`r->next = kmem.freelist; kmem.freelist = r;` — the old head pointer is
written into the first word of the page and the page becomes the new head. -/
def kfreePush (s : KState) (pa : Nat) : KState :=
  { s with
    mem := store64 s.mem pa (headPtr s.freelist)
    freelist := pa :: s.freelist }

/-- `kfree(pa)` (lines 88-109): panic if `pa` is misaligned, below `end`, or
at/above `PHYSTOP`; decrement the refcount; if the new count is `> 0` return
at once; otherwise `memset(pa, 1, PGSIZE)` and push `pa` onto the free list. -/
def kfree (endA PHYSTOP : Nat) (s : KState) (pa : Nat) : Option KState :=
  if pa % PGSIZE ≠ 0 ∨ pa < endA ∨ pa ≥ PHYSTOP then
    none
  else
    match decrefcnt PHYSTOP s pa with
    | none => none
    | some (cnt, s1) =>
      if cnt > 0 then
        some s1
      else
        some (kfreePush { s1 with mem := memset s1.mem pa 1 PGSIZE } pa)

/-- `kalloc()` (lines 114-130): pop the free-list head under `kmem.lock`;
on success (after releasing the lock) `memset((char*)r, 5, PGSIZE)` and set
`refcnt.count[(uint64)r / PGSIZE] = 1` (without taking `refcnt.lock`);
return the page, or null (`none`) if the list was empty. -/
def kalloc (s : KState) : Option Nat × KState :=
  match s.freelist with
  | [] => (none, s)
  | r :: rest =>
    (some r,
      { freelist := rest
        count := Function.update s.count (r / PGSIZE) 1
        mem := memset s.mem r 5 PGSIZE })

/-- The successive values of `p` in `freerange`'s loop
`for(; p + PGSIZE <= (char*)pa_end; p += PGSIZE)` starting from
`p = PGROUNDUP(pa_start)`: the loop runs `(pa_end - p₀) / PGSIZE` times. -/
def seedList (paStart paEnd : Nat) : List Nat :=
  (List.range ((paEnd - PGROUNDUP paStart) / PGSIZE)).map
    (fun i => PGROUNDUP paStart + PGSIZE * i)

/-- Sequencing of the `kfree(p)` calls made by `freerange`'s loop body. -/
def kfreeList (endA PHYSTOP : Nat) (s : KState) : List Nat → Option KState
  | [] => some s
  | p :: ps =>
    match kfree endA PHYSTOP s p with
    | none => none
    | some s' => kfreeList endA PHYSTOP s' ps

/-- `freerange(pa_start, pa_end)` (lines 75-82): call `kfree` on each
page-aligned `p` from `PGROUNDUP(pa_start)` while `p + PGSIZE ≤ pa_end`. -/
def freerange (endA PHYSTOP : Nat) (s : KState) (paStart paEnd : Nat) : Option KState :=
  kfreeList endA PHYSTOP s (seedList paStart paEnd)

/-- `kinit()` (lines 35-41): initializes the two locks and calls
`freerange(end, (void*)PHYSTOP)`.  C global arrays are zero-initialized, so
`refcnt.count` starts all zero and `kmem.freelist` starts null; `mem0` is
the arbitrary initial content of physical memory. -/
def kinit (endA PHYSTOP : Nat) (mem0 : Nat → Nat) : Option KState :=
  freerange endA PHYSTOP { freelist := [], count := fun _ => 0, mem := mem0 } endA PHYSTOP

/-- Iterate `kalloc` `n` times, collecting the returned values. -/
def kallocN (s : KState) : Nat → List (Option Nat) × KState
  | 0 => ([], s)
  | n + 1 =>
    let (r, s') := kalloc s
    let (rs, s'') := kallocN s' n
    (r :: rs, s'')

/-- A legal page address: page-aligned, at or above `end`, below `PHYSTOP`
(the addresses `kfree` accepts). -/
def pageOK (endA top pa : Nat) : Prop :=
  pa % PGSIZE = 0 ∧ endA ≤ pa ∧ pa < top

/-- Free-list invariant: every address on the free list is a legal page
address whose reference count is non-positive, and no address appears
twice. -/
def freeInv (endA top : Nat) (s : KState) : Prop :=
  (∀ pa ∈ s.freelist, pageOK endA top pa ∧ s.count (pa / PGSIZE) ≤ 0) ∧
    s.freelist.Nodup

/-- States reachable from `kinit` by the exported operations under the
kernel's ownership discipline: `kfree` and `increfcnt` are invoked only on
pages some owner holds (reference count positive); `kalloc` and `decrefcnt`
are unrestricted. -/
inductive Reach (endA top : Nat) : KState → Prop where
  | init : ∀ (mem0 : Nat → Nat) (s : KState),
      kinit endA top mem0 = some s → Reach endA top s
  | alloc : ∀ (s : KState) (r : Option Nat) (s' : KState),
      Reach endA top s → kalloc s = (r, s') → Reach endA top s'
  | free : ∀ (s : KState) (pa : Nat) (s' : KState),
      Reach endA top s → 0 < getrefcnt s pa →
      kfree endA top s pa = some s' → Reach endA top s'
  | incr : ∀ (s : KState) (pa : Nat) (s' : KState),
      Reach endA top s → 0 < getrefcnt s pa →
      increfcnt top s pa = some s' → Reach endA top s'
  | decr : ∀ (s : KState) (pa : Nat) (c : Int) (s' : KState),
      Reach endA top s → decrefcnt top s pa = some (c, s') → Reach endA top s'

/-! ## Lock-event traces

For the concurrency claims we record, for each operation, the sequence of
lock acquisitions/releases and accesses to the shared array `refcnt.count`,
in the order they occur in the source. -/

/-- The two spinlocks: `kmem.lock` and `refcnt.lock`. -/
inductive LockId where
  | kmem : LockId
  | refcnt : LockId
deriving DecidableEq

/-- Trace events: acquire a lock, release a lock, or access (read or write)
the shared counter array `refcnt.count`. -/
inductive Ev where
  | acq : LockId → Ev
  | rel : LockId → Ev
  | table : Ev
deriving DecidableEq

/-- `getrefcnt` (lines 44-48): a bare read of `refcnt.count`, no locking. -/
def getrefcntTrace : List Ev := [Ev.table]

/-- `increfcnt` (lines 57-59): `acquire(&refcnt.lock); refcnt.count[...]++;
release(&refcnt.lock);`. -/
def increfcntTrace : List Ev :=
  [Ev.acq LockId.refcnt, Ev.table, Ev.rel LockId.refcnt]

/-- `decrefcnt` (lines 69-71): same locking shape as `increfcnt`. -/
def decrefcntTrace : List Ev :=
  [Ev.acq LockId.refcnt, Ev.table, Ev.rel LockId.refcnt]

/-- `kfree` (lines 97-108): first the `decrefcnt` call, then — only when the
count reached zero (`pushed`) — `acquire(&kmem.lock); ...
release(&kmem.lock);`. -/
def kfreeTrace (pushed : Bool) : List Ev :=
  decrefcntTrace ++ if pushed then [Ev.acq LockId.kmem, Ev.rel LockId.kmem] else []

/-- `kalloc` (lines 119-127): `acquire(&kmem.lock); ... release(&kmem.lock);`
then, on success, the bare write `refcnt.count[(uint64)r / PGSIZE] = 1`
performed without `refcnt.lock`. -/
def kallocTrace (success : Bool) : List Ev :=
  [Ev.acq LockId.kmem, Ev.rel LockId.kmem] ++ if success then [Ev.table] else []

/-- Whether lock `l` is held after executing the events of `tr`. -/
def heldAfter (tr : List Ev) (l : LockId) : Bool :=
  tr.foldl
    (fun h e =>
      match e with
      | Ev.acq l' => if l' = l then true else h
      | Ev.rel l' => if l' = l then false else h
      | Ev.table => h)
    false

/-- Whether at some point of the trace both locks are held simultaneously. -/
def bothHeld (tr : List Ev) : Bool :=
  tr.inits.any fun pre => heldAfter pre LockId.kmem && heldAfter pre LockId.refcnt

/-- Whether every `refcnt.count` access in the trace happens while
`refcnt.lock` is held (first argument: lock currently held). -/
def tableLocked : Bool → List Ev → Bool
  | _, [] => true
  | h, Ev.acq l :: tr => tableLocked (if l = LockId.refcnt then true else h) tr
  | h, Ev.rel l :: tr => tableLocked (if l = LockId.refcnt then false else h) tr
  | h, Ev.table :: tr => h && tableLocked h tr

/-- A trace is serialized by the table mutex when all its table accesses
occur under `refcnt.lock`. -/
def tableSerialized (tr : List Ev) : Bool :=
  tableLocked false tr

end KAlloc

namespace KAlloc

/-! ## Helper lemmas -/

lemma pageNum_inj {a b : Nat} (ha : a % PGSIZE = 0) (hb : b % PGSIZE = 0)
    (h : a / PGSIZE = b / PGSIZE) : a = b := by
  simp only [PGSIZE] at ha hb h
  omega

lemma le_PGROUNDUP (a : Nat) : a ≤ PGROUNDUP a := by
  simp only [PGROUNDUP, PGSIZE]
  omega

lemma PGROUNDUP_lt (a : Nat) : PGROUNDUP a < a + PGSIZE := by
  simp only [PGROUNDUP, PGSIZE]
  omega

lemma PGROUNDUP_aligned (a : Nat) : PGROUNDUP a % PGSIZE = 0 := by
  simp only [PGROUNDUP, PGSIZE]
  omega

lemma mem_seedList {a b p : Nat} :
    p ∈ seedList a b ↔ p % PGSIZE = 0 ∧ PGROUNDUP a ≤ p ∧ p + PGSIZE ≤ b := by
  have hup := PGROUNDUP_aligned a
  simp only [seedList, List.mem_map, List.mem_range]
  constructor
  · rintro ⟨i, hi, rfl⟩
    simp only [PGSIZE] at *
    omega
  · rintro ⟨h1, h2, h3⟩
    refine ⟨(p - PGROUNDUP a) / PGSIZE, ?_, ?_⟩
    · simp only [PGSIZE] at *
      omega
    · simp only [PGSIZE] at *
      omega

lemma seedList_nodup (a b : Nat) : (seedList a b).Nodup := by
  refine List.Nodup.map ?_ (List.nodup_range _)
  intro i j h
  simp only [PGSIZE] at h
  omega

/-- Success path of `kfree` when the decremented count does not stay
positive: the page is scrubbed with the byte `1` and pushed. -/
lemma kfree_push_eq (endA top : Nat) (s : KState) (pa : Nat)
    (h1 : pa % PGSIZE = 0) (h2 : endA ≤ pa) (h3 : pa < top)
    (hc : s.count (pa / PGSIZE) ≤ 1) :
    kfree endA top s pa =
      some (kfreePush
        { s with
          count := Function.update s.count (pa / PGSIZE) (s.count (pa / PGSIZE) - 1)
          mem := memset s.mem pa 1 PGSIZE } pa) := by
  have hdec : decrefcnt top s pa =
      some (s.count (pa / PGSIZE) - 1,
        { s with count := Function.update s.count (pa / PGSIZE) (s.count (pa / PGSIZE) - 1) }) := by
    unfold decrefcnt
    rw [if_neg (by omega)]
  unfold kfree
  rw [if_neg (by omega), hdec]
  simp only []
  rw [if_neg (by omega)]

/-- Success path of `kfree` when the decremented count stays positive: only
the counter changes; the free list and memory are untouched. -/
lemma kfree_dec_eq (endA top : Nat) (s : KState) (pa : Nat)
    (h1 : pa % PGSIZE = 0) (h2 : endA ≤ pa) (h3 : pa < top)
    (hc : 1 < s.count (pa / PGSIZE)) :
    kfree endA top s pa =
      some { s with
        count := Function.update s.count (pa / PGSIZE) (s.count (pa / PGSIZE) - 1) } := by
  have hdec : decrefcnt top s pa =
      some (s.count (pa / PGSIZE) - 1,
        { s with count := Function.update s.count (pa / PGSIZE) (s.count (pa / PGSIZE) - 1) }) := by
    unfold decrefcnt
    rw [if_neg (by omega)]
  unfold kfree
  rw [if_neg (by omega), hdec]
  simp only []
  rw [if_pos (by omega)]

/-- Popping the head of a non-empty free list. -/
lemma kalloc_cons (p : Nat) (rest : List Nat) (c : Nat → Int) (m : Nat → Nat) :
    kalloc ⟨p :: rest, c, m⟩ =
      (some p, ⟨rest, Function.update c (p / PGSIZE) 1, memset m p 5 PGSIZE⟩) := rfl

/-- Effect of the seeding loop body on a list of fresh, legal, non-positive
count pages: all of them are pushed (in order, so the result is the reversed
list on top of the old free list) and each count drops by one. -/
lemma kfreeList_seed (endA top : Nat) (ps : List Nat) :
    ∀ s : KState,
    (∀ p ∈ ps, pageOK endA top p ∧ s.count (p / PGSIZE) ≤ 0 ∧ p ∉ s.freelist) →
    ps.Nodup →
    ∃ s', kfreeList endA top s ps = some s' ∧
      s'.freelist = ps.reverse ++ s.freelist ∧
      (∀ p ∈ ps, s'.count (p / PGSIZE) = s.count (p / PGSIZE) - 1) ∧
      (∀ q, (∀ p ∈ ps, p / PGSIZE ≠ q) → s'.count q = s.count q) := by
  induction ps with
  | nil =>
    intro s _ _
    exact ⟨s, rfl, by simp, by simp, fun q _ => rfl⟩
  | cons p ps ih =>
    intro s hps hnodup
    obtain ⟨⟨hal, hge, hlt⟩, hcnt, hnotin⟩ := hps p (List.mem_cons_self p ps)
    obtain ⟨hpps, hndps⟩ := List.nodup_cons.mp hnodup
    have hk := kfree_push_eq endA top s p hal hge hlt (by omega)
    set s2 := kfreePush
      { s with
        count := Function.update s.count (p / PGSIZE) (s.count (p / PGSIZE) - 1)
        mem := memset s.mem p 1 PGSIZE } p with hs2
    have hs2fl : s2.freelist = p :: s.freelist := rfl
    have hs2cnt : s2.count = Function.update s.count (p / PGSIZE) (s.count (p / PGSIZE) - 1) := rfl
    have hprem : ∀ q ∈ ps, pageOK endA top q ∧ s2.count (q / PGSIZE) ≤ 0 ∧ q ∉ s2.freelist := by
      intro q hq
      obtain ⟨⟨qal, qge, qlt⟩, qcnt, qnotin⟩ := hps q (List.mem_cons_of_mem _ hq)
      have hqp : q ≠ p := fun h => hpps (h ▸ hq)
      refine ⟨⟨qal, qge, qlt⟩, ?_, ?_⟩
      · rw [hs2cnt, Function.update_noteq (fun hdiv => hqp (pageNum_inj qal hal hdiv)) _ _]
        exact qcnt
      · rw [hs2fl]
        exact fun h => (List.mem_cons.mp h).elim hqp qnotin
    obtain ⟨s', h1, h2, h3, h4⟩ := ih s2 hprem hndps
    refine ⟨s', ?_, ?_, ?_, ?_⟩
    · unfold kfreeList
      rw [hk]
      exact h1
    · rw [h2, hs2fl]
      simp
    · intro q hq
      rcases List.mem_cons.mp hq with rfl | hq'
      · have hmiss : ∀ r ∈ ps, r / PGSIZE ≠ q / PGSIZE := by
          intro r hr hdiv
          exact hpps (pageNum_inj (hps r (List.mem_cons_of_mem _ hr)).1.1 hal hdiv ▸ hr)
        rw [h4 (q / PGSIZE) hmiss, hs2cnt, Function.update_same]
      · rw [h3 q hq', hs2cnt,
          Function.update_noteq
            (fun hdiv =>
              hpps (pageNum_inj (hps q (List.mem_cons_of_mem _ hq')).1.1 hal hdiv ▸ hq')) _ _]
    · intro q hq
      rw [h4 q fun r hr => hq r (List.mem_cons_of_mem _ hr), hs2cnt,
        Function.update_noteq (Ne.symm (hq p (List.mem_cons_self p ps))) _ _]

/-- `kinit` succeeds; its free list is the reversed seeding order and every
seeded page ends with reference count `-1` (the bootstrap decrement from
zero), all other counters staying `0`. -/
lemma kinit_eq (endA top : Nat) (mem0 : Nat → Nat) :
    ∃ s, kinit endA top mem0 = some s ∧
      s.freelist = (seedList endA top).reverse ∧
      (∀ p ∈ seedList endA top, s.count (p / PGSIZE) = -1) ∧
      (∀ q, (∀ p ∈ seedList endA top, p / PGSIZE ≠ q) → s.count q = 0) := by
  have hprem : ∀ p ∈ seedList endA top,
      pageOK endA top p ∧ (KState.mk [] (fun _ => 0) mem0).count (p / PGSIZE) ≤ 0 ∧
        p ∉ (KState.mk [] (fun _ => 0) mem0).freelist := by
    intro p hp
    obtain ⟨hal, hge, hlt⟩ := mem_seedList.mp hp
    refine ⟨⟨hal, le_trans (le_PGROUNDUP endA) hge, ?_⟩, ?_, ?_⟩
    · have : 0 < PGSIZE := by decide
      omega
    · exact le_refl 0
    · simp
  obtain ⟨s', h1, h2, h3, h4⟩ :=
    kfreeList_seed endA top (seedList endA top)
      ⟨[], fun _ => 0, mem0⟩ hprem (seedList_nodup endA top)
  refine ⟨s', h1, by simpa using h2, ?_, ?_⟩
  · intro p hp
    rw [h3 p hp]
    rfl
  · intro q hq
    exact h4 q hq

/-- Inversion of a successful `kfree`: the address checks passed and the
result is either the decrement-only state or the scrub-and-push state. -/
lemma kfree_some_inv (endA top : Nat) (s : KState) (pa : Nat) (s' : KState)
    (h : kfree endA top s pa = some s') :
    pa % PGSIZE = 0 ∧ endA ≤ pa ∧ pa < top ∧
    ((1 < s.count (pa / PGSIZE) ∧
        s' = { s with
          count := Function.update s.count (pa / PGSIZE) (s.count (pa / PGSIZE) - 1) }) ∨
      (s.count (pa / PGSIZE) ≤ 1 ∧
        s' = kfreePush
          { s with
            count := Function.update s.count (pa / PGSIZE) (s.count (pa / PGSIZE) - 1)
            mem := memset s.mem pa 1 PGSIZE } pa)) := by
  by_cases hc : pa % PGSIZE ≠ 0 ∨ pa < endA ∨ pa ≥ top
  · unfold kfree at h
    rw [if_pos hc] at h
    cases h
  · push_neg at hc
    obtain ⟨h1, h2, h3⟩ := hc
    refine ⟨h1, h2, h3, ?_⟩
    by_cases hcnt : 1 < s.count (pa / PGSIZE)
    · left
      rw [kfree_dec_eq endA top s pa h1 h2 h3 hcnt] at h
      exact ⟨hcnt, (Option.some.inj h).symm⟩
    · right
      push_neg at hcnt
      rw [kfree_push_eq endA top s pa h1 h2 h3 hcnt] at h
      exact ⟨hcnt, (Option.some.inj h).symm⟩

/-- Inversion of a successful `increfcnt`. -/
lemma increfcnt_some_inv (top : Nat) (s : KState) (pa : Nat) (s' : KState)
    (h : increfcnt top s pa = some s') :
    pa % PGSIZE = 0 ∧ pa < top ∧
    s' = { s with
      count := Function.update s.count (pa / PGSIZE) (s.count (pa / PGSIZE) + 1) } := by
  by_cases hc : pa % PGSIZE ≠ 0 ∨ pa ≥ top
  · unfold increfcnt at h
    rw [if_pos hc] at h
    cases h
  · push_neg at hc
    unfold increfcnt at h
    rw [if_neg (by omega)] at h
    exact ⟨hc.1, hc.2, (Option.some.inj h).symm⟩

/-- Inversion of a successful `decrefcnt`. -/
lemma decrefcnt_some_inv (top : Nat) (s : KState) (pa : Nat) (c : Int) (s' : KState)
    (h : decrefcnt top s pa = some (c, s')) :
    pa % PGSIZE = 0 ∧ pa < top ∧ c = s.count (pa / PGSIZE) - 1 ∧
    s' = { s with
      count := Function.update s.count (pa / PGSIZE) (s.count (pa / PGSIZE) - 1) } := by
  by_cases hc : pa % PGSIZE ≠ 0 ∨ pa ≥ top
  · unfold decrefcnt at h
    rw [if_pos hc] at h
    cases h
  · push_neg at hc
    unfold decrefcnt at h
    rw [if_neg (by omega)] at h
    obtain ⟨h1, h2⟩ := Prod.mk.injEq .. ▸ Option.some.inj h
    exact ⟨hc.1, hc.2, h1.symm, h2.symm⟩

/-- A page with a positive counter is not on the free list (given the
invariant). -/
lemma not_mem_freelist_of_pos (endA top : Nat) (s : KState) (pa : Nat)
    (hinv : freeInv endA top s) (hpos : 0 < s.count (pa / PGSIZE)) :
    pa ∉ s.freelist := by
  intro hmem
  have := (hinv.1 pa hmem).2
  omega

/-- `kalloc` preserves the free-list invariant. -/
lemma freeInv_alloc (endA top : Nat) (s : KState) (r : Option Nat) (s' : KState)
    (hinv : freeInv endA top s) (h : kalloc s = (r, s')) : freeInv endA top s' := by
  obtain ⟨fl, cnt, mm⟩ := s
  cases fl with
  | nil =>
    injection h with h1 h2
    exact h2 ▸ hinv
  | cons p rest =>
    rw [kalloc_cons] at h
    injection h with h1 h2
    subst h2
    obtain ⟨hpnin, hnd⟩ := List.nodup_cons.mp hinv.2
    refine ⟨?_, hnd⟩
    intro q hq
    obtain ⟨⟨qal, qge, qlt⟩, qcnt⟩ := hinv.1 q (List.mem_cons_of_mem _ hq)
    obtain ⟨⟨pal, _, _⟩, _⟩ := hinv.1 p (List.mem_cons_self _ _)
    have hqp : q ≠ p := fun e => hpnin (e ▸ hq)
    refine ⟨⟨qal, qge, qlt⟩, ?_⟩
    simpa [Function.update_noteq (fun hdiv => hqp (pageNum_inj qal pal hdiv))] using qcnt

/-- `kfree` under the ownership discipline preserves the free-list
invariant. -/
lemma freeInv_free (endA top : Nat) (s : KState) (pa : Nat) (s' : KState)
    (hinv : freeInv endA top s) (hpos : 0 < getrefcnt s pa)
    (h : kfree endA top s pa = some s') : freeInv endA top s' := by
  unfold getrefcnt at hpos
  obtain ⟨hal, hge, hlt, hcase⟩ := kfree_some_inv endA top s pa s' h
  have hnin : pa ∉ s.freelist := not_mem_freelist_of_pos endA top s pa hinv hpos
  rcases hcase with ⟨hcnt, rfl⟩ | ⟨hcnt, rfl⟩
  · refine ⟨?_, hinv.2⟩
    intro q hq
    obtain ⟨⟨qal, qge, qlt⟩, qcnt⟩ := hinv.1 q hq
    have hqp : q ≠ pa := fun e => hnin (e ▸ hq)
    refine ⟨⟨qal, qge, qlt⟩, ?_⟩
    simpa [Function.update_noteq (fun hdiv => hqp (pageNum_inj qal hal hdiv))] using qcnt
  · refine ⟨?_, List.nodup_cons.mpr ⟨hnin, hinv.2⟩⟩
    intro q hq
    rcases List.mem_cons.mp hq with rfl | hq'
    · refine ⟨⟨hal, hge, hlt⟩, ?_⟩
      show Function.update s.count (q / PGSIZE) (s.count (q / PGSIZE) - 1) (q / PGSIZE) ≤ 0
      rw [Function.update_same]
      omega
    · obtain ⟨⟨qal, qge, qlt⟩, qcnt⟩ := hinv.1 q hq'
      have hqp : q ≠ pa := fun e => hnin (e ▸ hq')
      refine ⟨⟨qal, qge, qlt⟩, ?_⟩
      show Function.update s.count (pa / PGSIZE) (s.count (pa / PGSIZE) - 1) (q / PGSIZE) ≤ 0
      rw [Function.update_noteq (fun hdiv => hqp (pageNum_inj qal hal hdiv))]
      exact qcnt

/-- `increfcnt` under the ownership discipline preserves the free-list
invariant. -/
lemma freeInv_incr (endA top : Nat) (s : KState) (pa : Nat) (s' : KState)
    (hinv : freeInv endA top s) (hpos : 0 < getrefcnt s pa)
    (h : increfcnt top s pa = some s') : freeInv endA top s' := by
  unfold getrefcnt at hpos
  obtain ⟨hal, hlt, rfl⟩ := increfcnt_some_inv top s pa s' h
  have hnin : pa ∉ s.freelist := not_mem_freelist_of_pos endA top s pa hinv hpos
  refine ⟨?_, hinv.2⟩
  intro q hq
  obtain ⟨⟨qal, qge, qlt⟩, qcnt⟩ := hinv.1 q hq
  have hqp : q ≠ pa := fun e => hnin (e ▸ hq)
  refine ⟨⟨qal, qge, qlt⟩, ?_⟩
  simpa [Function.update_noteq (fun hdiv => hqp (pageNum_inj qal hal hdiv))] using qcnt

/-- A bare `decrefcnt` preserves the free-list invariant (counters on the
free list only move further down). -/
lemma freeInv_decr (endA top : Nat) (s : KState) (pa : Nat) (c : Int) (s' : KState)
    (hinv : freeInv endA top s) (h : decrefcnt top s pa = some (c, s')) :
    freeInv endA top s' := by
  obtain ⟨hal, hlt, _, rfl⟩ := decrefcnt_some_inv top s pa c s' h
  refine ⟨?_, hinv.2⟩
  intro q hq
  obtain ⟨⟨qal, qge, qlt⟩, qcnt⟩ := hinv.1 q hq
  refine ⟨⟨qal, qge, qlt⟩, ?_⟩
  by_cases hdiv : q / PGSIZE = pa / PGSIZE
  · show Function.update s.count (pa / PGSIZE) (s.count (pa / PGSIZE) - 1) (q / PGSIZE) ≤ 0
    rw [hdiv, Function.update_same]
    rw [hdiv] at qcnt
    omega
  · show Function.update s.count (pa / PGSIZE) (s.count (pa / PGSIZE) - 1) (q / PGSIZE) ≤ 0
    rw [Function.update_noteq hdiv]
    exact qcnt

/-! ## Claim theorems -/

/-- C2, counterexample: the claim "every address present in the free list
has reference count 0" already fails in the state reached by initialization
alone: seeding over the three-page range `[0x1000, 0x4000)` puts `0x1000` on
the free list with reference count `-1` (the bootstrap decrement drives the
counter from `0` to `-1`, not to `0`). -/
theorem c2_counterexample :
    0x1000 ∈
      ((kinit 0x1000 0x4000 fun _ => 0).getD ⟨[], fun _ => 0, fun _ => 0⟩).freelist ∧
    getrefcnt ((kinit 0x1000 0x4000 fun _ => 0).getD ⟨[], fun _ => 0, fun _ => 0⟩) 0x1000
      = -1 ∧
    (kinit 0x1000 0x4000 fun _ => 0).isSome = true := by
  refine ⟨by decide, by decide, by decide⟩

/-- C2 (amended): in every state reachable from initialization via
`kalloc`, plus `kfree`/`increfcnt` restricted to addresses whose reference
count is positive (the kernel's ownership discipline) and unrestricted
`decrefcnt`, every address on the free list is a legal page address with
reference count at most `0` (`-1` for never-allocated seeded pages, `0`
after a full release), and no address appears on the free list twice. -/
theorem c2_freelist_invariant (endA top : Nat) (s : KState)
    (h : Reach endA top s) : freeInv endA top s := by
  induction h with
  | init mem0 s hk =>
    obtain ⟨s0, h1, h2, h3, _⟩ := kinit_eq endA top mem0
    rw [hk] at h1
    obtain rfl : s = s0 := Option.some.inj h1
    constructor
    · intro q hq
      rw [h2] at hq
      have hq' := List.mem_reverse.mp hq
      obtain ⟨al, ge, lt⟩ := mem_seedList.mp hq'
      refine ⟨⟨al, le_trans (le_PGROUNDUP _) ge, ?_⟩, ?_⟩
      · have : 0 < PGSIZE := by decide
        omega
      · rw [h3 q hq']
        decide
    · rw [h2]
      exact List.nodup_reverse.mpr (seedList_nodup _ _)
  | alloc s r s' _ h ih => exact freeInv_alloc endA top s r s' ih h
  | free s pa s' _ hpos h ih => exact freeInv_free endA top s pa s' ih hpos h
  | incr s pa s' _ hpos h ih => exact freeInv_incr endA top s pa s' ih hpos h
  | decr s pa c s' _ h ih => exact freeInv_decr endA top s pa c s' ih h

/-- Witness for C2's amended invariant at the concrete initialized state
over the range `[0x1000, 0x4000)`. -/
theorem c2_freelist_invariant_witness :
    freeInv 0x1000 0x4000
      ((kinit 0x1000 0x4000 fun _ => 0).getD ⟨[], fun _ => 0, fun _ => 0⟩) :=
  c2_freelist_invariant 0x1000 0x4000 _ (Reach.init (fun _ => 0) _ (by rfl))

/-- C1: whenever `kalloc` returns an address (non-null), the reference count
of that page immediately after the call is exactly `1` (line 127 sets
`refcnt.count[(uint64)r / PGSIZE] = 1`). -/
theorem c1_alloc_refcnt_one (s : KState) (pa : Nat) (s' : KState)
    (h : kalloc s = (some pa, s')) : getrefcnt s' pa = 1 := by
  obtain ⟨fl, cnt, mm⟩ := s
  cases fl with
  | nil =>
    injection h with h1 _
    cases h1
  | cons p rest =>
    rw [kalloc_cons] at h
    injection h with h1 h2
    obtain rfl : p = pa := Option.some.inj h1
    subst h2
    show Function.update cnt (p / PGSIZE) 1 (p / PGSIZE) = 1
    rw [Function.update_same]

/-- Witness for C1 at a concrete one-page state. -/
theorem c1_alloc_refcnt_one_witness :
    kalloc ⟨[0x1000], fun _ => 0, fun _ => 0⟩ =
      (some 0x1000, (kalloc ⟨[0x1000], fun _ => 0, fun _ => 0⟩).2) ∧
    getrefcnt (kalloc ⟨[0x1000], fun _ => 0, fun _ => 0⟩).2 0x1000 = 1 :=
  ⟨rfl, c1_alloc_refcnt_one ⟨[0x1000], fun _ => 0, fun _ => 0⟩ 0x1000 _ rfl⟩

/-- C6: `kfree` panics exactly when the address is misaligned, at or above
`PHYSTOP`, or below `end`; `increfcnt` and `decrefcnt` panic exactly when
the address is misaligned or at or above `PHYSTOP` (a panic is modelled by
`none`, which carries no successor state). -/
theorem c6_fatal_exactly (endA top : Nat) (s : KState) (pa : Nat) :
    (kfree endA top s pa = none ↔ pa % PGSIZE ≠ 0 ∨ top ≤ pa ∨ pa < endA) ∧
    (increfcnt top s pa = none ↔ pa % PGSIZE ≠ 0 ∨ top ≤ pa) ∧
    (decrefcnt top s pa = none ↔ pa % PGSIZE ≠ 0 ∨ top ≤ pa) := by
  refine ⟨⟨?_, ?_⟩, ⟨?_, ?_⟩, ⟨?_, ?_⟩⟩
  · intro h
    by_contra hc
    push_neg at hc
    obtain ⟨h1, h2, h3⟩ := hc
    by_cases hcnt : 1 < s.count (pa / PGSIZE)
    · rw [kfree_dec_eq endA top s pa h1 (by omega) (by omega) hcnt] at h
      cases h
    · push_neg at hcnt
      rw [kfree_push_eq endA top s pa h1 (by omega) (by omega) hcnt] at h
      cases h
  · intro h
    unfold kfree
    rw [if_pos (by omega)]
  · intro h
    by_contra hc
    push_neg at hc
    unfold increfcnt at h
    rw [if_neg (by omega)] at h
    cases h
  · intro h
    unfold increfcnt
    rw [if_pos (by omega)]
  · intro h
    by_contra hc
    push_neg at hc
    unfold decrefcnt at h
    rw [if_neg (by omega)] at h
    cases h
  · intro h
    unfold decrefcnt
    rw [if_pos (by omega)]

/-- C10: `kfree` has no double-free protection: an address that passes the
alignment/boundary checks whose count is already `≤ 0` (for instance a page
currently on the free list) is not rejected — its counter is decremented
below zero and the address is pushed onto the free list a further time, so
the same address occurs twice. -/
theorem c10_no_double_free_protection (endA top : Nat) (s : KState) (pa : Nat)
    (h1 : pa % PGSIZE = 0) (h2 : endA ≤ pa) (h3 : pa < top)
    (hc : s.count (pa / PGSIZE) ≤ 0) (hmem : pa ∈ s.freelist) :
    ∃ s', kfree endA top s pa = some s' ∧
      s'.freelist = pa :: s.freelist ∧
      getrefcnt s' pa = s.count (pa / PGSIZE) - 1 ∧
      getrefcnt s' pa < 0 ∧
      2 ≤ s'.freelist.count pa := by
  have hval :
      getrefcnt
        (kfreePush
          { s with
            count := Function.update s.count (pa / PGSIZE) (s.count (pa / PGSIZE) - 1)
            mem := memset s.mem pa 1 PGSIZE } pa) pa
        = s.count (pa / PGSIZE) - 1 := by
    show Function.update s.count (pa / PGSIZE) (s.count (pa / PGSIZE) - 1) (pa / PGSIZE)
      = s.count (pa / PGSIZE) - 1
    rw [Function.update_same]
  refine ⟨_, kfree_push_eq endA top s pa h1 h2 h3 (by omega), rfl, hval, ?_, ?_⟩
  · rw [hval]
    omega
  · show 2 ≤ (pa :: s.freelist).count pa
    rw [List.count_cons_self]
    have := List.count_pos_iff.mpr hmem
    omega

/-- Witness for C10: double-freeing the single free page `0x1000` puts it on
the free list twice. -/
theorem c10_no_double_free_protection_witness :
    (kfree 0x1000 0x4000 ⟨[0x1000], fun _ => 0, fun _ => 0⟩ 0x1000).isSome = true ∧
    ((kfree 0x1000 0x4000 ⟨[0x1000], fun _ => 0, fun _ => 0⟩ 0x1000).getD
        ⟨[], fun _ => 0, fun _ => 0⟩).freelist = [0x1000, 0x1000] := by
  obtain ⟨s', hk, hfl, _, _, _⟩ :=
    c10_no_double_free_protection 0x1000 0x4000 ⟨[0x1000], fun _ => 0, fun _ => 0⟩ 0x1000
      (by decide) (by decide) (by decide) (by decide) (by decide)
  rw [hk]
  exact ⟨rfl, hfl⟩

/-- C3: the free list is a stack.  From a state whose next two allocations
are the distinct legal pages `A` then `B`, fully releasing `A` and then `B`
makes the next two allocations return `B` first and then `A`. -/
theorem c3_stack_order (endA top : Nat) (cnt : Nat → Int) (mm : Nat → Nat)
    (A B : Nat) (rest : List Nat)
    (hA : A % PGSIZE = 0) (hB : B % PGSIZE = 0) (hAB : A ≠ B)
    (hAe : endA ≤ A) (hAt : A < top) (hBe : endA ≤ B) (hBt : B < top) :
    ∃ s1 s2 s3 s4,
      kalloc ⟨A :: B :: rest, cnt, mm⟩ = (some A, s1) ∧
      kalloc s1 = (some B, s2) ∧
      kfree endA top s2 A = some s3 ∧
      kfree endA top s3 B = some s4 ∧
      (kalloc s4).1 = some B ∧
      (kalloc (kalloc s4).2).1 = some A := by
  have hABpg : A / PGSIZE ≠ B / PGSIZE := fun h => hAB (pageNum_inj hA hB h)
  have hBApg : B / PGSIZE ≠ A / PGSIZE := Ne.symm hABpg
  set u1 := Function.update cnt (A / PGSIZE) 1 with hu1
  set u2 := Function.update u1 (B / PGSIZE) 1 with hu2
  set m1 := memset mm A 5 PGSIZE with hm1
  set m2 := memset m1 B 5 PGSIZE with hm2
  have hc2A : (KState.mk rest u2 m2).count (A / PGSIZE) ≤ 1 := by
    show u2 (A / PGSIZE) ≤ 1
    rw [hu2, Function.update_noteq hABpg, hu1, Function.update_same]
  have hk3 := kfree_push_eq endA top ⟨rest, u2, m2⟩ A hA hAe hAt hc2A
  set s3 := kfreePush
    { KState.mk rest u2 m2 with
      count := Function.update ((KState.mk rest u2 m2).count) (A / PGSIZE)
        ((KState.mk rest u2 m2).count (A / PGSIZE) - 1)
      mem := memset ((KState.mk rest u2 m2).mem) A 1 PGSIZE } A with hs3
  have hc3B : s3.count (B / PGSIZE) ≤ 1 := by
    show Function.update u2 (A / PGSIZE) (u2 (A / PGSIZE) - 1) (B / PGSIZE) ≤ 1
    rw [Function.update_noteq hBApg, hu2, Function.update_same]
  have hk4 := kfree_push_eq endA top s3 B hB hBe hBt hc3B
  refine ⟨⟨B :: rest, u1, m1⟩, ⟨rest, u2, m2⟩, s3, _, rfl, rfl, hk3, hk4, rfl, rfl⟩

/-- Witness for C3 with `A = 0x3000`, `B = 0x2000` over the seeded three-page
range. -/
theorem c3_stack_order_witness :
    ∃ s1 s2 s3 s4,
      kalloc ⟨[0x3000, 0x2000, 0x1000], fun _ => 0, fun _ => 0⟩ = (some 0x3000, s1) ∧
      kalloc s1 = (some 0x2000, s2) ∧
      kfree 0x1000 0x4000 s2 0x3000 = some s3 ∧
      kfree 0x1000 0x4000 s3 0x2000 = some s4 ∧
      (kalloc s4).1 = some 0x2000 ∧
      (kalloc (kalloc s4).2).1 = some 0x3000 :=
  c3_stack_order 0x1000 0x4000 (fun _ => 0) (fun _ => 0) 0x3000 0x2000 [0x1000]
    (by decide) (by decide) (by decide) (by decide) (by decide) (by decide) (by decide)

/-- C4: shared-page behaviour.  Allocate `P` (count `1`), increment
(count `2`); the first `kfree` only decrements to `1` and leaves the free
list (and memory) completely unchanged, so `P` is not allocatable; the
second `kfree` brings the count to `0`, pushes `P`, and the next `kalloc`
returns `P` again. -/
theorem c4_shared_release (endA top : Nat) (cnt : Nat → Int) (mm : Nat → Nat)
    (P : Nat) (rest : List Nat)
    (hP : P % PGSIZE = 0) (hPe : endA ≤ P) (hPt : P < top) (hPr : P ∉ rest) :
    ∃ s1 s2 s3 s4,
      kalloc ⟨P :: rest, cnt, mm⟩ = (some P, s1) ∧ getrefcnt s1 P = 1 ∧
      increfcnt top s1 P = some s2 ∧ getrefcnt s2 P = 2 ∧
      kfree endA top s2 P = some s3 ∧ getrefcnt s3 P = 1 ∧
      s3.freelist = s2.freelist ∧ s3.mem = s2.mem ∧ P ∉ s3.freelist ∧
      kfree endA top s3 P = some s4 ∧ getrefcnt s4 P = 0 ∧
      s4.freelist = P :: rest ∧ (kalloc s4).1 = some P := by
  set u1 := Function.update cnt (P / PGSIZE) 1 with hu1d
  have hu1 : u1 (P / PGSIZE) = 1 := Function.update_same _ _ _
  set m1 := memset mm P 5 PGSIZE with hm1d
  set s1 := KState.mk rest u1 m1 with hs1
  have hk2 : increfcnt top s1 P =
      some { s1 with
        count := Function.update s1.count (P / PGSIZE) (s1.count (P / PGSIZE) + 1) } := by
    unfold increfcnt
    rw [if_neg (by omega)]
  set u2 := Function.update s1.count (P / PGSIZE) (s1.count (P / PGSIZE) + 1) with hu2d
  have hu2 : u2 (P / PGSIZE) = 2 := by
    rw [hu2d, Function.update_same]
    show u1 (P / PGSIZE) + 1 = 2
    rw [hu1]
    decide
  set s2 := KState.mk rest u2 m1 with hs2
  have hgt : 1 < s2.count (P / PGSIZE) := by
    show 1 < u2 (P / PGSIZE)
    rw [hu2]
    decide
  have hk3 := kfree_dec_eq endA top s2 P hP hPe hPt hgt
  set u3 := Function.update s2.count (P / PGSIZE) (s2.count (P / PGSIZE) - 1) with hu3d
  have hu3 : u3 (P / PGSIZE) = 1 := by
    rw [hu3d, Function.update_same]
    show u2 (P / PGSIZE) - 1 = 1
    rw [hu2]
    decide
  set s3 := KState.mk rest u3 m1 with hs3
  have hle : s3.count (P / PGSIZE) ≤ 1 := by
    show u3 (P / PGSIZE) ≤ 1
    rw [hu3]
  have hk4 := kfree_push_eq endA top s3 P hP hPe hPt hle
  refine ⟨s1, s2, s3, _, rfl, ?_, hk2, ?_, hk3, ?_, rfl, rfl, hPr, hk4, ?_, rfl, rfl⟩
  · show u1 (P / PGSIZE) = 1
    exact hu1
  · show u2 (P / PGSIZE) = 2
    exact hu2
  · show u3 (P / PGSIZE) = 1
    exact hu3
  · show Function.update s3.count (P / PGSIZE) (s3.count (P / PGSIZE) - 1) (P / PGSIZE) = 0
    rw [Function.update_same]
    show u3 (P / PGSIZE) - 1 = 0
    rw [hu3]
    decide

/-- Witness for C4 with `P = 0x3000` over the seeded three-page range. -/
theorem c4_shared_release_witness :
    ∃ s1 s2 s3 s4,
      kalloc ⟨[0x3000, 0x2000, 0x1000], fun _ => 0, fun _ => 0⟩ = (some 0x3000, s1) ∧
      getrefcnt s1 0x3000 = 1 ∧
      increfcnt 0x4000 s1 0x3000 = some s2 ∧ getrefcnt s2 0x3000 = 2 ∧
      kfree 0x1000 0x4000 s2 0x3000 = some s3 ∧ getrefcnt s3 0x3000 = 1 ∧
      s3.freelist = s2.freelist ∧ s3.mem = s2.mem ∧ 0x3000 ∉ s3.freelist ∧
      kfree 0x1000 0x4000 s3 0x3000 = some s4 ∧ getrefcnt s4 0x3000 = 0 ∧
      s4.freelist = [0x3000, 0x2000, 0x1000] ∧ (kalloc s4).1 = some 0x3000 :=
  c4_shared_release 0x1000 0x4000 (fun _ => 0) (fun _ => 0) 0x3000 [0x2000, 0x1000]
    (by decide) (by decide) (by decide) (by decide)

/-- An empty free list makes `kalloc` return the null sentinel. -/
lemma kalloc_none_of_nil (s : KState) (h : s.freelist = []) : (kalloc s).1 = none := by
  obtain ⟨fl, cnt, mm⟩ := s
  cases fl with
  | nil => rfl
  | cons p rest => exact absurd h (by simp)

/-- Draining a free list of length `k` with `k` allocations: every call
succeeds and the list ends empty. -/
lemma kallocN_drain : ∀ (k : Nat) (s : KState), s.freelist.length = k →
    (∀ r ∈ (kallocN s k).1, r.isSome = true) ∧ (kallocN s k).2.freelist = [] := by
  intro k
  induction k with
  | zero =>
    intro s h
    exact ⟨by simp [kallocN], List.length_eq_zero.mp h⟩
  | succ k ih =>
    intro s h
    obtain ⟨fl, cnt, mm⟩ := s
    cases fl with
    | nil => simp at h
    | cons p rest =>
      have hlen :
          (KState.mk rest (Function.update cnt (p / PGSIZE) 1)
            (memset mm p 5 PGSIZE)).freelist.length = k := by
        simpa using h
      obtain ⟨ha, hb⟩ := ih _ hlen
      constructor
      · intro r hr
        simp only [kallocN, kalloc_cons] at hr
        rcases List.mem_cons.mp hr with rfl | hr'
        · rfl
        · exact ha r hr'
      · simpa only [kallocN, kalloc_cons] using hb

/-- C5: `kalloc` returns the null sentinel exactly when the free list is
empty; with `k` pages on the free list, `k` allocations all succeed, the
`(k+1)`-th returns null, and after one full release (count reaching `0`)
the next allocation succeeds again, returning the released page. -/
theorem c5_exhaustion (endA top : Nat) :
    (∀ s : KState, (kalloc s).1 = none ↔ s.freelist = []) ∧
    (∀ (s : KState) (k : Nat), s.freelist.length = k →
      (∀ r ∈ (kallocN s k).1, r.isSome = true) ∧ (kalloc (kallocN s k).2).1 = none) ∧
    (∀ (s : KState) (pa : Nat), pa % PGSIZE = 0 → endA ≤ pa → pa < top →
      s.count (pa / PGSIZE) ≤ 1 →
      ∃ s', kfree endA top s pa = some s' ∧ (kalloc s').1 = some pa) := by
  refine ⟨?_, ?_, ?_⟩
  · intro s
    obtain ⟨fl, cnt, mm⟩ := s
    cases fl with
    | nil => simp [kalloc]
    | cons p rest => simp [kalloc_cons]
  · intro s k h
    obtain ⟨h1, h2⟩ := kallocN_drain k s h
    exact ⟨h1, kalloc_none_of_nil _ h2⟩
  · intro s pa h1 h2 h3 hc
    exact ⟨_, kfree_push_eq endA top s pa h1 h2 h3 hc, rfl⟩

/-- Witness for C5: a two-page free list is drained by two allocations, the
third returns null, and a full release of `0x1000` from the exhausted state
makes the next allocation return `0x1000`. -/
theorem c5_exhaustion_witness :
    ((kalloc ⟨[], fun _ => 0, fun _ => 0⟩).1 = none ↔
      (KState.mk [] (fun _ => 0) (fun _ => 0)).freelist = []) ∧
    (kalloc (kallocN ⟨[0x2000, 0x1000], fun _ => 0, fun _ => 0⟩ 2).2).1 = none ∧
    ∃ s', kfree 0x1000 0x4000 ⟨[], fun _ => 0, fun _ => 0⟩ 0x1000 = some s' ∧
      (kalloc s').1 = some 0x1000 :=
  ⟨(c5_exhaustion 0x1000 0x4000).1 ⟨[], fun _ => 0, fun _ => 0⟩,
   ((c5_exhaustion 0x1000 0x4000).2.1 ⟨[0x2000, 0x1000], fun _ => 0, fun _ => 0⟩ 2 rfl).2,
   (c5_exhaustion 0x1000 0x4000).2.2 ⟨[], fun _ => 0, fun _ => 0⟩ 0x1000
     (by decide) (by decide) (by decide) (by decide)⟩

/-- C7: `freerange` rounds the range start up to the next page boundary and
calls `kfree` exactly once (the iteration list has no duplicates) on every
page-aligned `p` from that boundary with `p + PGSIZE ≤ rangeEnd` — any
partial final page is excluded — in ascending order, so the free list ends
reversed; over the three-page range `[0x1000, 0x4000)` the first `kalloc`
after `kinit` returns `0x3000`. -/
theorem c7_seed_range (endA top : Nat) (mem0 : Nat → Nat) :
    (∀ p, p ∈ seedList endA top ↔
      p % PGSIZE = 0 ∧ PGROUNDUP endA ≤ p ∧ p + PGSIZE ≤ top) ∧
    (seedList endA top).Nodup ∧
    (endA ≤ PGROUNDUP endA ∧ PGROUNDUP endA % PGSIZE = 0 ∧
      PGROUNDUP endA < endA + PGSIZE) ∧
    (∃ s, kinit endA top mem0 = some s ∧ s.freelist = (seedList endA top).reverse) ∧
    (kinit 0x1000 0x4000 fun _ => 0).map KState.freelist =
      some [0x3000, 0x2000, 0x1000] ∧
    (kinit 0x1000 0x4000 fun _ => 0).map (fun s => (kalloc s).1) =
      some (some 0x3000) := by
  refine ⟨fun p => mem_seedList, seedList_nodup endA top,
    ⟨le_PGROUNDUP endA, PGROUNDUP_aligned endA, PGROUNDUP_lt endA⟩, ?_, by decide, by decide⟩
  obtain ⟨s, h1, h2, _, _⟩ := kinit_eq endA top mem0
  exact ⟨s, h1, h2⟩

/-- C8: both paths scrub with distinct fixed patterns.  When a release
drives the count to `0`, the page passed to the free-list push is entirely
filled with the free pattern `1`; the page returned by the following
allocation is entirely filled with the allocation pattern `5`; hence a
marker byte (≠ 5) written before the full release is gone once the page is
next allocated. -/
theorem c8_scrub_patterns (endA top : Nat) (s : KState) (pa off marker : Nat)
    (h1 : pa % PGSIZE = 0) (h2 : endA ≤ pa) (h3 : pa < top)
    (hc : s.count (pa / PGSIZE) ≤ 1) (hoff : off < PGSIZE)
    (_hm : s.mem (pa + off) = marker) (hmark : marker ≠ 5) :
    ∃ s2, kfree endA top s pa = some (kfreePush s2 pa) ∧
      (∀ i, i < PGSIZE → s2.mem (pa + i) = 1) ∧
      (kalloc (kfreePush s2 pa)).1 = some pa ∧
      (∀ i, i < PGSIZE → (kalloc (kfreePush s2 pa)).2.mem (pa + i) = 5) ∧
      (kalloc (kfreePush s2 pa)).2.mem (pa + off) ≠ marker := by
  have hfree := kfree_push_eq endA top s pa h1 h2 h3 hc
  set s2 := { s with
    count := Function.update s.count (pa / PGSIZE) (s.count (pa / PGSIZE) - 1)
    mem := memset s.mem pa 1 PGSIZE } with hs2
  have hscrub : ∀ i, i < PGSIZE → s2.mem (pa + i) = 1 := by
    intro i hi
    show memset s.mem pa 1 PGSIZE (pa + i) = 1
    unfold memset
    rw [if_pos ⟨Nat.le_add_right _ _, by omega⟩]
  have hallocmem : ∀ i, i < PGSIZE → (kalloc (kfreePush s2 pa)).2.mem (pa + i) = 5 := by
    intro i hi
    show memset (kfreePush s2 pa).mem pa 5 PGSIZE (pa + i) = 5
    unfold memset
    rw [if_pos ⟨Nat.le_add_right _ _, by omega⟩]
  refine ⟨s2, hfree, hscrub, rfl, hallocmem, ?_⟩
  rw [hallocmem off hoff]
  exact Ne.symm hmark

/-- Witness for C8: page `0x1000` holding marker byte `7` is scrubbed to `1`
on release and to `5` on reallocation. -/
theorem c8_scrub_patterns_witness :
    ∃ s2, kfree 0x1000 0x4000 ⟨[], fun _ => 0, fun _ => 7⟩ 0x1000 =
        some (kfreePush s2 0x1000) ∧
      (∀ i, i < PGSIZE → s2.mem (0x1000 + i) = 1) ∧
      (kalloc (kfreePush s2 0x1000)).1 = some 0x1000 ∧
      (∀ i, i < PGSIZE → (kalloc (kfreePush s2 0x1000)).2.mem (0x1000 + i) = 5) ∧
      (kalloc (kfreePush s2 0x1000)).2.mem (0x1000 + 0) ≠ 7 :=
  c8_scrub_patterns 0x1000 0x4000 ⟨[], fun _ => 0, fun _ => 7⟩ 0x1000 0 7
    (by decide) (by decide) (by decide) (by decide) (by decide) rfl (by decide)

/-- C9, counterexample: the claim that all three table operations are
serialized by the table mutex is false — `getrefcnt` reads `refcnt.count`
with no lock at all, and `kalloc`'s counter initialization writes the table
outside `refcnt.lock`. -/
theorem c9_counterexample :
    tableSerialized getrefcntTrace = false ∧
    tableSerialized (kallocTrace true) = false := by decide

/-- C9 (amended): no operation's trace ever holds both mutexes at once;
`kfree` completes its `decrefcnt` (acquiring and releasing the table lock)
before any free-list lock event and touches the table no further;
`kalloc` releases the free-list lock before its counter write;
`increfcnt` and `decrefcnt` are serialized by the table mutex, but
`getrefcnt`'s read and `kalloc`'s counter write access the table without
holding it. -/
theorem c9_lock_discipline :
    bothHeld (kfreeTrace true) = false ∧ bothHeld (kfreeTrace false) = false ∧
    bothHeld (kallocTrace true) = false ∧ bothHeld (kallocTrace false) = false ∧
    bothHeld increfcntTrace = false ∧ bothHeld decrefcntTrace = false ∧
    bothHeld getrefcntTrace = false ∧
    (kfreeTrace true).take 3 = decrefcntTrace ∧
    (kfreeTrace false).take 3 = decrefcntTrace ∧
    ((kfreeTrace true).drop 3).all
      (fun e => e != Ev.acq LockId.refcnt && e != Ev.rel LockId.refcnt &&
        e != Ev.table) = true ∧
    ((kfreeTrace false).drop 3).all
      (fun e => e != Ev.acq LockId.refcnt && e != Ev.rel LockId.refcnt &&
        e != Ev.table) = true ∧
    kallocTrace true = [Ev.acq LockId.kmem, Ev.rel LockId.kmem, Ev.table] ∧
    tableSerialized increfcntTrace = true ∧
    tableSerialized decrefcntTrace = true ∧
    tableSerialized getrefcntTrace = false ∧
    tableSerialized (kallocTrace true) = false := by decide

end KAlloc
